import Mathlib

/-!
Verification of the PCG32x32 core generator and the Gen32 derived-operations
layer. Machine integers are modelled as `Nat` with explicit reduction
modulo `2 ^ 32` (wrapping semantics) at every operation that can overflow.
-/

set_option maxRecDepth 8000

/-- The modulus of all 32-bit arithmetic. -/
def W32 : Nat := 4294967296

/-- The fixed LCG multiplier of the 32-bit generator family. -/
def PCG_MULTIPLIER_32 : Nat := 0xf13283ad

/-- The pure linear-congruential advance: wrapping multiply by the fixed
multiplier, then wrapping add of the stream increment. -/
def pcg_core_state32 (state inc : Nat) : Nat :=
  ((state * PCG_MULTIPLIER_32) % W32 + inc) % W32

/-- The RXS-M-XS output permutation. Returns the pair of the produced
output word and the permuted (mutated-in-place) working value. -/
def rxs_m_xs_u32_to_u32 (state : Nat) : Nat × Nat :=
  let state1 := state ^^^ (((state >>> (4 + (state >>> 28))) * 277803737) % W32)
  (state1 ^^^ (state1 >>> 22), state1)

/-- The generator state record: a working value and a stream increment. -/
structure Pcg32x32 where
  state : Nat
  inc : Nat
deriving DecidableEq, Repr

/-- Seed a new generator: force the increment odd, advance once from zero,
wrapping-add the seed, advance again. -/
def Pcg32x32.seed (sv si : Nat) : Pcg32x32 :=
  let inc := ((si <<< 1) % W32) ||| 1
  { state := pcg_core_state32 ((pcg_core_state32 0 inc + sv) % W32) inc
    inc := inc }

/-- Produce the next 32 bits of output: permute the working value in place,
emit the xor-folded permuted value, then advance the permuted value by the
LCG step. -/
def Pcg32x32.next_u32 (g : Pcg32x32) : Nat × Pcg32x32 :=
  let r := rxs_m_xs_u32_to_u32 g.state
  (r.1, { state := pcg_core_state32 r.2 g.inc, inc := g.inc })

/-- Modelled from the spec: the body of the make_jump_lcgX macro is not in
the sources at hand, only its instantiation jump_lcg32_32 is. The spec
describes binary exponentiation over the affine recurrence: squaring the
current affine map each round and folding it into the accumulator on the
set bits of delta. A 32-bit delta is consumed in at most 32 rounds. -/
def jump_lcg_loop (fuel delta cur_mult cur_plus acc_mult acc_plus : Nat) :
    Nat × Nat :=
  match fuel with
  | 0 => (acc_mult, acc_plus)
  | fuel' + 1 =>
    if delta = 0 then (acc_mult, acc_plus)
    else
      jump_lcg_loop fuel' (delta / 2)
        ((cur_mult * cur_mult) % W32)
        (((cur_mult + 1) * cur_plus) % W32)
        (if delta % 2 = 1 then (acc_mult * cur_mult) % W32 else acc_mult)
        (if delta % 2 = 1 then (acc_plus * cur_mult + cur_plus) % W32
         else acc_plus)

/-- Modelled from the spec: the width-generic jump routine, producing the
composite multiplier and increment for delta steps and applying them. -/
def jump_lcg32_32 (delta state mult inc : Nat) : Nat :=
  let mp := jump_lcg_loop 32 delta mult inc 1 0
  (mp.1 * state + mp.2) % W32

/-- Jump the generator delta steps forward along the pure LCG orbit. -/
def Pcg32x32.jump (g : Pcg32x32) (delta : Nat) : Pcg32x32 :=
  { state := jump_lcg32_32 delta g.state PCG_MULTIPLIER_32 g.inc
    inc := g.inc }

/-- Reconstruction of a generator from a raw two-word pair (From [u32; 2]):
the fields are copied verbatim, nothing is re-derived. -/
def Pcg32x32.fromPair (p : Nat × Nat) : Pcg32x32 :=
  { state := p.1, inc := p.2 }

/-- Export of the raw two-word pair (Into [u32; 2]). -/
def Pcg32x32.toPair (g : Pcg32x32) : Nat × Nat :=
  (g.state, g.inc)

/-- The generators reachable through the public construction and advance
operations: seeding (the Default instance is seed applied to two fixed
constants, so it is an instance of the seed case), reconstruction from a
saved two-word pair, raw-word production, and jump. -/
inductive Reachable : Pcg32x32 → Prop where
  | seeded : ∀ sv si, Reachable (Pcg32x32.seed sv si)
  | restored : ∀ g, Reachable g → Reachable (Pcg32x32.fromPair (Pcg32x32.toPair g))
  | stepped : ∀ g, Reachable g → Reachable (Pcg32x32.next_u32 g).2
  | jumped : ∀ g d, Reachable g → Reachable (Pcg32x32.jump g d)

/-- Clamp a usize length into the 32-bit range (64-bit target). -/
def saturating_usize_as_u32 (val : Nat) : Nat :=
  if val ≤ 4294967295 then val else 4294967295

/-- Wrapping negation on u32. -/
def wrapping_neg_u32 (b : Nat) : Nat :=
  (W32 - b % W32) % W32

/-- The rejection loop of next_bounded: while the low 32 bits of the
current product fall below the threshold, redraw. Fuel bounds the number
of redraws; running out of fuel yields none (the loop would continue). -/
def nbLoop {σ : Type} (g32 : σ → Nat × σ) (b t : Nat) :
    Nat → Nat → σ → Option (Except σ (Nat × σ))
  | fuel, mul, s =>
    if mul % W32 < t then
      match fuel with
      | 0 => none
      | fuel' + 1 => nbLoop g32 b t fuel' (b * (g32 s).1) (g32 s).2
    else some (Except.ok (mul / W32, s))

/-- Bounded draw by multiply-and-reject. Bound zero is the contract
violation: the failure carries the untouched generator state, showing no
draw was made. Otherwise draw, and accept unless the low half of the
64-bit product is below the rejection threshold. -/
def next_bounded {σ : Type} (g32 : σ → Nat × σ) (fuel b : Nat) (s : σ) :
    Option (Except σ (Nat × σ)) :=
  if b = 0 then some (Except.error s)
  else
    if (b * (g32 s).1) % W32 < b then
      nbLoop g32 b (wrapping_neg_u32 b % b) fuel (b * (g32 s).1) (g32 s).2
    else some (Except.ok ((b * (g32 s).1) / W32, (g32 s).2))

/-- Pick an element of a sequence by a bounded draw on its clamped length;
an out-of-range index is a failure as well. -/
def pick {σ α : Type} (g32 : σ → Nat × σ) (fuel : Nat) (s : σ)
    (buf : List α) : Option (Except σ (α × σ)) :=
  match next_bounded g32 fuel (saturating_usize_as_u32 buf.length) s with
  | none => none
  | some (Except.error s1) => some (Except.error s1)
  | some (Except.ok is) =>
    match buf.get? is.1 with
    | some a => some (Except.ok (a, is.2))
    | none => some (Except.error is.2)

/-- Same selection as pick, shared-reference flavour. -/
def pick_ref {σ α : Type} (g32 : σ → Nat × σ) (fuel : Nat) (s : σ)
    (buf : List α) : Option (Except σ (α × σ)) :=
  match next_bounded g32 fuel (saturating_usize_as_u32 buf.length) s with
  | none => none
  | some (Except.error s1) => some (Except.error s1)
  | some (Except.ok is) =>
    match buf.get? is.1 with
    | some a => some (Except.ok (a, is.2))
    | none => some (Except.error is.2)

/-- Same selection as pick, unique-reference flavour. -/
def pick_mut {σ α : Type} (g32 : σ → Nat × σ) (fuel : Nat) (s : σ)
    (buf : List α) : Option (Except σ (α × σ)) :=
  match next_bounded g32 fuel (saturating_usize_as_u32 buf.length) s with
  | none => none
  | some (Except.error s1) => some (Except.error s1)
  | some (Except.ok is) =>
    match buf.get? is.1 with
    | some a => some (Except.ok (a, is.2))
    | none => some (Except.error is.2)

/-- Swap two positions of a list; out of range leaves the list unchanged. -/
def listSwap {α : Type} (l : List α) (i j : Nat) : List α :=
  match l.get? i, l.get? j with
  | some a, some b => (l.set i b).set j a
  | _, _ => l

/-- The forward Fisher-Yates loop: while the index is below the end marker,
draw a bounded offset, swap, shrink the possibility count. -/
def shuffleLoop {σ α : Type} (g32 : σ → Nat × σ) :
    Nat → σ → List α → Nat → Nat → Nat → Option (Except σ (List α × σ))
  | fuel, s, buf, pc, i, e =>
    if i < e then
      match fuel with
      | 0 => none
      | fuel' + 1 =>
        match next_bounded g32 fuel' pc s with
        | none => none
        | some (Except.error s1) => some (Except.error s1)
        | some (Except.ok os) =>
          shuffleLoop g32 fuel' os.2 (listSwap buf i (i + os.1)) (pc - 1)
            (i + 1) e
    else some (Except.ok (buf, s))

/-- Shuffle a sequence in place. The end marker is the wrapping usize
subtraction length - 1, so a zero-length buffer enters the loop and hits
the zero-bound contract violation on its first draw. -/
def shuffle {σ α : Type} (g32 : σ → Nat × σ) (fuel : Nat) (s : σ)
    (buf : List α) : Option (Except σ (List α × σ)) :=
  shuffleLoop g32 fuel s buf (saturating_usize_as_u32 buf.length) 0
    ((buf.length + 18446744073709551615) % 18446744073709551616)

/-- C1: for every generator, next_u32 permutes with the state-dependent
shift 4 + (state >> 28), multiplies by 277803737 mod 2^32, xor-folds by 22
for the output, and stores the LCG step applied to the already-permuted
value, with the increment unchanged. -/
theorem c1_next_u32_entangled (g : Pcg32x32) :
    Pcg32x32.next_u32 g =
      ((g.state ^^^ (((g.state >>> (4 + (g.state >>> 28))) * 277803737) % W32))
          ^^^ ((g.state ^^^ (((g.state >>> (4 + (g.state >>> 28))) * 277803737) % W32)) >>> 22),
        { state := pcg_core_state32
            (g.state ^^^ (((g.state >>> (4 + (g.state >>> 28))) * 277803737) % W32))
            g.inc
          inc := g.inc }) := by
  rfl

/-- C2: seed forces the increment odd by shift-or, then advances from
zero, wrapping-adds the seed value, and advances again. -/
theorem c2_seed_formula (sv si : Nat) :
    Pcg32x32.seed sv si =
      { state := pcg_core_state32
          ((pcg_core_state32 0 (((si <<< 1) % W32) ||| 1) + sv) % W32)
          (((si <<< 1) % W32) ||| 1)
        inc := ((si <<< 1) % W32) ||| 1 } := by
  rfl

/-- C10: the shift in the increment computation discards the top bit of
the stream selector, so stream_id and stream_id + 2^31 (mod 2^32) seed
bit-identical generators. -/
theorem c10_stream_top_bit_ignored (sv si : Nat) :
    Pcg32x32.seed sv si = Pcg32x32.seed sv ((si + 2147483648) % W32) := by
  have h : ((si <<< 1) % W32) = ((((si + 2147483648) % W32) <<< 1) % W32) := by
    simp only [Nat.shiftLeft_eq, W32, pow_one]
    omega
  simp only [Pcg32x32.seed, h]

theorem lor_one_odd (x : Nat) : (x ||| 1) % 2 = 1 := by
  simp

theorem W32_eq_pow : W32 = 2 ^ 32 := rfl

theorem pcg_core_state32_lt (s i : Nat) : pcg_core_state32 s i < W32 :=
  Nat.mod_lt _ (by norm_num [W32])

theorem shiftRight_le_self (n k : Nat) : n >>> k ≤ n := by
  rw [Nat.shiftRight_eq_div_pow]
  exact Nat.div_le_self _ _

theorem rxs_out_lt (s : Nat) (hs : s < W32) :
    (rxs_m_xs_u32_to_u32 s).1 < W32 ∧ (rxs_m_xs_u32_to_u32 s).2 < W32 := by
  have h1 : (s ^^^ (((s >>> (4 + (s >>> 28))) * 277803737) % W32)) < W32 := by
    rw [W32_eq_pow] at hs ⊢
    exact Nat.xor_lt_two_pow hs (Nat.mod_lt _ (by norm_num))
  constructor
  · rw [W32_eq_pow] at h1 ⊢
    exact Nat.xor_lt_two_pow h1
      (Nat.lt_of_le_of_lt (shiftRight_le_self _ _) h1)
  · exact h1

/-- C7: every reachable generator has an odd increment: each construction
path forces or preserves oddness, and next_u32 and jump never touch inc. -/
theorem c7_reachable_inc_odd :
    (∀ g, Reachable g → g.inc % 2 = 1) ∧
    (∀ g : Pcg32x32, (Pcg32x32.next_u32 g).2.inc = g.inc) ∧
    (∀ (g : Pcg32x32) (d : Nat), (Pcg32x32.jump g d).inc = g.inc) := by
  refine ⟨?_, fun g => rfl, fun g d => rfl⟩
  intro g h
  induction h with
  | seeded sv si => exact lor_one_odd _
  | restored g _ ih => exact ih
  | stepped g _ ih => exact ih
  | jumped g d _ ih => exact ih

theorem c7_reachable_inc_odd_witness : (Pcg32x32.seed 0 0).inc % 2 = 1 :=
  c7_reachable_inc_odd.1 (Pcg32x32.seed 0 0) (Reachable.seeded 0 0)

/-- C6: a zero bound is the contract violation: next_bounded with bound 0,
and pick, pick_ref, pick_mut and shuffle on an empty sequence, all fail
deterministically, returning the generator state untouched (the failure
precedes any draw). -/
theorem c6_zero_bound_contract :
    (∀ (σ : Type) (g32 : σ → Nat × σ) (fuel : Nat) (s : σ),
        next_bounded g32 fuel 0 s = some (Except.error s)) ∧
    (∀ (σ α : Type) (g32 : σ → Nat × σ) (fuel : Nat) (s : σ),
        pick g32 fuel s ([] : List α) = some (Except.error s)) ∧
    (∀ (σ α : Type) (g32 : σ → Nat × σ) (fuel : Nat) (s : σ),
        pick_ref g32 fuel s ([] : List α) = some (Except.error s)) ∧
    (∀ (σ α : Type) (g32 : σ → Nat × σ) (fuel : Nat) (s : σ),
        pick_mut g32 fuel s ([] : List α) = some (Except.error s)) ∧
    (∀ (σ α : Type) (g32 : σ → Nat × σ) (fuel : Nat) (s : σ),
        shuffle g32 (fuel + 1) s ([] : List α) = some (Except.error s)) := by
  refine ⟨fun σ g32 fuel s => rfl, ?_, ?_, ?_, ?_⟩
  · intro σ α g32 fuel s
    simp [pick, next_bounded, saturating_usize_as_u32, W32]
  · intro σ α g32 fuel s
    simp [pick_ref, next_bounded, saturating_usize_as_u32, W32]
  · intro σ α g32 fuel s
    simp [pick_mut, next_bounded, saturating_usize_as_u32, W32]
  · intro σ α g32 fuel s
    simp [shuffle, shuffleLoop, next_bounded, saturating_usize_as_u32, W32]

/-- C8 counterexample: on the empty slice, shuffle is not a successful
no-op: the wrapping end marker sends it into the loop and the zero-bound
contract violation fires. -/
theorem c8_empty_shuffle_counterexample :
    shuffle Pcg32x32.next_u32 5 (Pcg32x32.seed 0 0) ([] : List Nat) =
      some (Except.error (Pcg32x32.seed 0 0)) ∧
    shuffle Pcg32x32.next_u32 5 (Pcg32x32.seed 0 0) ([] : List Nat) ≠
      some (Except.ok (([] : List Nat), Pcg32x32.seed 0 0)) := by
  constructor
  · rfl
  · intro h
    have e1 : shuffle Pcg32x32.next_u32 5 (Pcg32x32.seed 0 0) ([] : List Nat)
        = some (Except.error (Pcg32x32.seed 0 0)) := rfl
    rw [e1] at h
    injection h with h2
    exact Except.noConfusion h2

theorem shuffleLoop_exit {σ α : Type} (g32 : σ → Nat × σ) (fuel : Nat)
    (s : σ) (buf : List α) (pc i e : Nat) (h : ¬ i < e) :
    shuffleLoop g32 fuel s buf pc i e = some (Except.ok (buf, s)) := by
  cases fuel with
  | zero =>
    unfold shuffleLoop
    rw [if_neg h]
  | succ n =>
    unfold shuffleLoop
    rw [if_neg h]

/-- C8 amended: shuffle on a one-element slice is a no-op performing no
draws, while a zero-length slice instead triggers the zero-bound contract
violation with generator and slice untouched. -/
theorem c8_shuffle_small :
    (∀ (σ α : Type) (g32 : σ → Nat × σ) (fuel : Nat) (s : σ) (a : α),
        shuffle g32 fuel s [a] = some (Except.ok ([a], s))) ∧
    (∀ (σ α : Type) (g32 : σ → Nat × σ) (fuel : Nat) (s : σ),
        shuffle g32 (fuel + 1) s ([] : List α) = some (Except.error s)) := by
  constructor
  · intro σ α g32 fuel s a
    unfold shuffle
    exact shuffleLoop_exit g32 fuel s [a] _ 0 _ (by norm_num)
  · intro σ α g32 fuel s
    simp [shuffle, shuffleLoop, next_bounded, saturating_usize_as_u32, W32]

/-- C9: with the wrapping (modulo 2^32) arithmetic model, the run-time
shift is always between 4 and 19 for a 32-bit state, and every operation
keeps state, output and increment inside the 32-bit range. -/
theorem c9_wrapping_safety (g : Pcg32x32) (hs : g.state < W32) :
    (4 ≤ 4 + (g.state >>> 28) ∧ 4 + (g.state >>> 28) ≤ 19) ∧
    (Pcg32x32.next_u32 g).1 < W32 ∧
    (Pcg32x32.next_u32 g).2.state < W32 ∧
    (∀ sv si, (Pcg32x32.seed sv si).state < W32 ∧
      (Pcg32x32.seed sv si).inc < W32) ∧
    (∀ d, (Pcg32x32.jump g d).state < W32) ∧
    (∀ s i, pcg_core_state32 s i < W32) := by
  refine ⟨⟨Nat.le_add_right 4 _, ?_⟩, ?_, ?_, ?_, ?_, ?_⟩
  · have hs2 : g.state < 4294967296 := hs
    have h28 : g.state >>> 28 < 16 := by
      rw [Nat.shiftRight_eq_div_pow]
      have hp : (2 : Nat) ^ 28 = 268435456 := by norm_num
      rw [hp]
      omega
    omega
  · exact (rxs_out_lt g.state hs).1
  · exact pcg_core_state32_lt _ _
  · intro sv si
    refine ⟨pcg_core_state32_lt _ _, ?_⟩
    show ((si <<< 1) % W32) ||| 1 < W32
    rw [W32_eq_pow]
    exact Nat.or_lt_two_pow (Nat.mod_lt _ (by norm_num)) (by norm_num)
  · intro d
    exact Nat.mod_lt _ (by norm_num [W32])
  · exact pcg_core_state32_lt

theorem c9_wrapping_safety_witness :
    (Pcg32x32.seed 0 0).state < W32 ∧
      4 + ((Pcg32x32.seed 0 0).state >>> 28) ≤ 19 :=
  ⟨by decide, (c9_wrapping_safety (Pcg32x32.seed 0 0) (by decide)).1.2⟩

theorem nb_accept {b mul v : Nat} (hb : 0 < b)
    (hmul : ∃ x, x < W32 ∧ mul = b * x) (h : mul / W32 = v) :
    v < b ∧ ∃ x, x < W32 ∧ v = b * x / W32 := by
  obtain ⟨x, hx, rfl⟩ := hmul
  subst h
  refine ⟨?_, x, hx, rfl⟩
  have hlt : b * x < b * W32 := by
    have := mul_lt_mul_of_pos_left hx hb
    exact this
  exact (Nat.div_lt_iff_lt_mul (by norm_num [W32])).2 (by linarith)

theorem nbLoop_ok {σ : Type} (g32 : σ → Nat × σ) (hg : ∀ u, (g32 u).1 < W32)
    (b t : Nat) (hb : 0 < b) :
    ∀ (fuel mul : Nat) (s s2 : σ) (v : Nat),
      (∃ x, x < W32 ∧ mul = b * x) →
      nbLoop g32 b t fuel mul s = some (Except.ok (v, s2)) →
      v < b ∧ ∃ x, x < W32 ∧ v = b * x / W32 := by
  intro fuel
  induction fuel with
  | zero =>
    intro mul s s2 v hmul hres
    unfold nbLoop at hres
    split at hres
    · simp at hres
    · refine nb_accept hb hmul ?_
      simp only [Option.some.injEq, Except.ok.injEq, Prod.mk.injEq] at hres
      exact hres.1
  | succ n ih =>
    intro mul s s2 v hmul hres
    unfold nbLoop at hres
    split at hres
    · exact ih (b * (g32 s).1) (g32 s).2 s2 v ⟨(g32 s).1, hg s, rfl⟩ hres
    · refine nb_accept hb hmul ?_
      simp only [Option.some.injEq, Except.ok.injEq, Prod.mk.injEq] at hres
      exact hres.1

/-- C3: whenever next_bounded with a positive bound returns an accepted
value, that value is strictly below the bound, and it is the high 32 bits
of the 64-bit product of the bound with the finally accepted raw draw. -/
theorem c3_next_bounded_lt {σ : Type} (g32 : σ → Nat × σ)
    (hg : ∀ u, (g32 u).1 < W32) (fuel b : Nat) (s : σ) (s2 : σ) (v : Nat)
    (hb : 0 < b)
    (hres : next_bounded g32 fuel b s = some (Except.ok (v, s2))) :
    v < b ∧ ∃ x, x < W32 ∧ v = b * x / W32 := by
  unfold next_bounded at hres
  rw [if_neg (Nat.pos_iff_ne_zero.1 hb)] at hres
  split at hres
  · exact nbLoop_ok g32 hg b _ hb fuel _ _ s2 v ⟨(g32 s).1, hg s, rfl⟩ hres
  · refine nb_accept hb ⟨(g32 s).1, hg s, rfl⟩ ?_
    simp only [Option.some.injEq, Except.ok.injEq, Prod.mk.injEq] at hres
    exact hres.1

theorem c3_next_bounded_lt_witness :
    (3 : Nat) < 5 ∧ ∃ x, x < W32 ∧ (3 : Nat) = 5 * x / W32 :=
  c3_next_bounded_lt (fun _ : Unit => (3298818698, ()))
    (fun _ => show (3298818698 : Nat) < W32 by decide)
    0 5 () () 3 (by norm_num) rfl

/-- An affine map on 32-bit values: multiply, add, reduce. -/
def affF (m p s : Nat) : Nat :=
  (m * s + p) % W32

theorem pcg_core_eq_affF (s i : Nat) :
    pcg_core_state32 s i = affF PCG_MULTIPLIER_32 i s := by
  unfold pcg_core_state32 affF
  have h : s * PCG_MULTIPLIER_32 % W32 + i
      ≡ PCG_MULTIPLIER_32 * s + i [MOD W32] :=
    Nat.ModEq.add_right i ((Nat.mod_modEq _ _).trans (by rw [Nat.mul_comm]))
  exact h

theorem affF_comp (m2 p2 m1 p1 s : Nat) :
    affF m2 p2 (affF m1 p1 s)
      = affF ((m2 * m1) % W32) ((m2 * p1 + p2) % W32) s := by
  unfold affF
  have h1 : m2 * ((m1 * s + p1) % W32) + p2
      ≡ m2 * (m1 * s + p1) + p2 [MOD W32] :=
    Nat.ModEq.add_right p2 (Nat.ModEq.mul_left m2 (Nat.mod_modEq _ _))
  have h2 : (m2 * m1) % W32 * s + (m2 * p1 + p2) % W32
      ≡ m2 * m1 * s + (m2 * p1 + p2) [MOD W32] :=
    Nat.ModEq.add (Nat.ModEq.mul_right s (Nat.mod_modEq _ _)) (Nat.mod_modEq _ _)
  have h3 : m2 * (m1 * s + p1) + p2 ≡ m2 * m1 * s + (m2 * p1 + p2) [MOD W32] := by
    have : m2 * (m1 * s + p1) + p2 = m2 * m1 * s + (m2 * p1 + p2) := by ring
    rw [this]
  exact (h1.trans h3).trans h2.symm

theorem affF_sq (m p s : Nat) :
    affF m p (affF m p s)
      = affF ((m * m) % W32) (((m + 1) * p) % W32) s := by
  rw [affF_comp]
  have h : m * p + p = (m + 1) * p := by ring
  rw [h]

theorem jump_lcg_loop_eq (fuel : Nat) :
    ∀ (delta cm cp am ap s : Nat), delta < 2 ^ fuel →
      affF (jump_lcg_loop fuel delta cm cp am ap).1
          (jump_lcg_loop fuel delta cm cp am ap).2 s
        = (affF cm cp)^[delta] (affF am ap s) := by
  induction fuel with
  | zero =>
    intro delta cm cp am ap s h
    have hd : delta = 0 := by omega
    subst hd
    rfl
  | succ n ih =>
    intro delta cm cp am ap s h
    by_cases hd : delta = 0
    · subst hd
      rfl
    · have hdiv : delta / 2 < 2 ^ n := by
        have h2 : delta < 2 ^ n * 2 := by
          rw [← pow_succ]
          exact h
        exact (Nat.div_lt_iff_lt_mul (by norm_num)).2 h2
      have key := ih (delta / 2) ((cm * cm) % W32) (((cm + 1) * cp) % W32)
        (if delta % 2 = 1 then (am * cm) % W32 else am)
        (if delta % 2 = 1 then (ap * cm + cp) % W32 else ap) s hdiv
      have hunf : jump_lcg_loop (n + 1) delta cm cp am ap
          = jump_lcg_loop n (delta / 2) ((cm * cm) % W32)
            (((cm + 1) * cp) % W32)
            (if delta % 2 = 1 then (am * cm) % W32 else am)
            (if delta % 2 = 1 then (ap * cm + cp) % W32 else ap) := by
        rw [jump_lcg_loop]
        rw [if_neg hd]
      rw [hunf, key]
      have hsq : (affF cm cp)^[2]
          = affF ((cm * cm) % W32) (((cm + 1) * cp) % W32) := by
        funext x
        exact affF_sq cm cp x
      rcases Nat.mod_two_eq_zero_or_one delta with hp | hp
      · rw [hp]
        norm_num
        have hdelta : delta = 2 * (delta / 2) := by omega
        rw [← hsq, ← Function.iterate_mul, ← hdelta]
      · rw [hp]
        norm_num
        have hfold : affF ((am * cm) % W32) ((ap * cm + cp) % W32) s
            = affF cm cp (affF am ap s) := by
          rw [affF_comp]
          rw [Nat.mul_comm cm am, Nat.mul_comm cm ap]
        rw [hfold, ← hsq, ← Function.iterate_mul, ← Function.iterate_succ_apply]
        have hdelta : (2 * (delta / 2)).succ = delta := by omega
        rw [hdelta]

theorem affF_one_zero (s : Nat) (hs : s < W32) : affF 1 0 s = s := by
  unfold affF
  rw [Nat.one_mul, Nat.add_zero]
  exact Nat.mod_eq_of_lt hs

theorem jump_state_eq (g : Pcg32x32) (delta : Nat) (hd : delta < W32)
    (hs : g.state < W32) :
    (Pcg32x32.jump g delta).state
      = (fun x => pcg_core_state32 x g.inc)^[delta] g.state := by
  have hstep : (fun x => pcg_core_state32 x g.inc)
      = affF PCG_MULTIPLIER_32 g.inc := by
    funext x
    exact pcg_core_eq_affF x g.inc
  show affF (jump_lcg_loop 32 delta PCG_MULTIPLIER_32 g.inc 1 0).1
      (jump_lcg_loop 32 delta PCG_MULTIPLIER_32 g.inc 1 0).2 g.state = _
  rw [jump_lcg_loop_eq 32 delta _ _ 1 0 g.state (show delta < 2 ^ 32 from hd)]
  rw [affF_one_zero g.state hs, hstep]

theorem step_iter_lt (inc : Nat) : ∀ (n s : Nat), s < W32 →
    (fun x => pcg_core_state32 x inc)^[n] s < W32 := by
  intro n
  induction n with
  | zero =>
    intro s hs
    simpa using hs
  | succ k ih =>
    intro s hs
    rw [Function.iterate_succ_apply']
    exact pcg_core_state32_lt _ _

/-- The truncated geometric sum of powers of a, through its recursion
G(n+1) = a * G(n) + 1. -/
def geomS (a : Nat) : Nat → Nat
  | 0 => 0
  | n + 1 => a * geomS a n + 1

theorem geomS_identity (c : Nat) : ∀ n, c * geomS (c + 1) n + 1 = (c + 1) ^ n := by
  intro n
  induction n with
  | zero => simp [geomS]
  | succ k ih =>
    show c * ((c + 1) * geomS (c + 1) k + 1) + 1 = (c + 1) ^ (k + 1)
    have expand : c * ((c + 1) * geomS (c + 1) k + 1) + 1
        = (c + 1) * (c * geomS (c + 1) k + 1) := by ring
    rw [expand, ih, pow_succ]
    ring

theorem step_iter_formula (inc : Nat) : ∀ (n s : Nat), s < W32 →
    (fun x => pcg_core_state32 x inc)^[n] s
      = (PCG_MULTIPLIER_32 ^ n * s + inc * geomS PCG_MULTIPLIER_32 n) % W32 := by
  intro n
  induction n with
  | zero =>
    intro s hs
    show s = (PCG_MULTIPLIER_32 ^ 0 * s + inc * geomS PCG_MULTIPLIER_32 0) % W32
    rw [pow_zero, Nat.one_mul]
    show s = (s + inc * 0) % W32
    rw [Nat.mul_zero, Nat.add_zero, Nat.mod_eq_of_lt hs]
  | succ k ih =>
    intro s hs
    rw [Function.iterate_succ_apply', ih s hs, pcg_core_eq_affF]
    unfold affF
    have h1 : PCG_MULTIPLIER_32 * ((PCG_MULTIPLIER_32 ^ k * s
        + inc * geomS PCG_MULTIPLIER_32 k) % W32) + inc
        ≡ PCG_MULTIPLIER_32 * (PCG_MULTIPLIER_32 ^ k * s
          + inc * geomS PCG_MULTIPLIER_32 k) + inc [MOD W32] :=
    Nat.ModEq.add_right inc (Nat.ModEq.mul_left _ (Nat.mod_modEq _ _))
    have h2 : PCG_MULTIPLIER_32 * (PCG_MULTIPLIER_32 ^ k * s
        + inc * geomS PCG_MULTIPLIER_32 k) + inc
        = PCG_MULTIPLIER_32 ^ (k + 1) * s
          + inc * geomS PCG_MULTIPLIER_32 (k + 1) := by
      show _ = _ * s + inc * (PCG_MULTIPLIER_32 * geomS PCG_MULTIPLIER_32 k + 1)
      rw [pow_succ]
      ring
    exact h1.trans (by rw [h2])

theorem sq_one_mod_two_pow (b j : Nat) (hb : b ≡ 1 [MOD 2 ^ (j + 1)]) :
    b * b ≡ 1 [MOD 2 ^ (j + 2)] := by
  have hb1 : 1 ≤ b := by
    rcases Nat.eq_zero_or_pos b with h0 | h1
    · exfalso
      subst h0
      have hm : 1 < 2 ^ (j + 1) := Nat.one_lt_two_pow (by omega)
      have h2 : (0 : Nat) % 2 ^ (j + 1) = 1 % 2 ^ (j + 1) := hb
      rw [Nat.zero_mod, Nat.mod_eq_of_lt hm] at h2
      omega
    · exact h1
  obtain ⟨c, hc⟩ := (Nat.modEq_iff_dvd' hb1).1 hb.symm
  have hbe : b = 2 ^ (j + 1) * c + 1 := (Nat.sub_eq_iff_eq_add hb1).1 hc
  have key : b * b = 2 ^ (j + 2) * (2 ^ j * c * c + c) + 1 := by
    subst hbe
    ring
  have h0 : b * b ≡ 0 + 1 [MOD 2 ^ (j + 2)] := by
    rw [key]
    exact Nat.ModEq.add_right 1 ((Nat.modEq_zero_iff_dvd).2 ⟨_, rfl⟩)
  simpa using h0

theorem M_pow_two_pow : ∀ k : Nat,
    PCG_MULTIPLIER_32 ^ 2 ^ k ≡ 1 [MOD 2 ^ (k + 2)] := by
  intro k
  induction k with
  | zero =>
    show PCG_MULTIPLIER_32 ^ 1 ≡ 1 [MOD 4]
    rw [pow_one]
    decide
  | succ k ih =>
    have hsq := sq_one_mod_two_pow (PCG_MULTIPLIER_32 ^ 2 ^ k) (k + 1) ih
    have hpow : PCG_MULTIPLIER_32 ^ 2 ^ (k + 1)
        = PCG_MULTIPLIER_32 ^ 2 ^ k * PCG_MULTIPLIER_32 ^ 2 ^ k := by
      rw [pow_succ, pow_mul, pow_two]
    rw [hpow]
    exact hsq

theorem coprime_2pow32_t : Nat.Coprime 4294967296 1011654891 := by
  have h2 : ¬ (2 : Nat) ∣ 1011654891 := by omega
  have hc2 : Nat.Coprime 2 1011654891 :=
    (Nat.prime_two.coprime_iff_not_dvd).2 h2
  have hc3 := Nat.Coprime.pow_left 32 hc2
  have e1 : (2 : Nat) ^ 32 = 4294967296 := by norm_num
  rwa [e1] at hc3

theorem W32_dvd_geomS : W32 ∣ geomS PCG_MULTIPLIER_32 4294967296 := by
  obtain ⟨S, hS⟩ : ∃ S, geomS 4046619565 4294967296 = S := ⟨_, rfl⟩
  have eM : PCG_MULTIPLIER_32 = 4046619565 := rfl
  have eadd : (4046619564 + 1 : Nat) = 4046619565 := rfl
  have hgeom := geomS_identity 4046619564 4294967296
  rw [eadd, hS] at hgeom
  have hpow : (4046619565 : Nat) ^ 4294967296 ≡ 1 [MOD 17179869184] := by
    have h := M_pow_two_pow 32
    have e1 : (2 : Nat) ^ 32 = 4294967296 := by norm_num
    have e2 : (2 : Nat) ^ (32 + 2) = 17179869184 := by norm_num
    rw [e1, e2, eM] at h
    exact h
  have h3 : 4046619564 * S + 1 ≡ 0 + 1 [MOD 17179869184] := by
    rw [hgeom, Nat.zero_add]
    exact hpow
  obtain ⟨k, hk⟩ :=
    (Nat.modEq_zero_iff_dvd).1 (Nat.ModEq.add_right_cancel' 1 h3)
  have hk2 : 1011654891 * S = 4294967296 * k := by
    have h4 : 4 * (1011654891 * S) = 4 * (4294967296 * k) := by
      calc 4 * (1011654891 * S) = 4046619564 * S := by ring
      _ = 17179869184 * k := hk
      _ = 4 * (4294967296 * k) := by ring
    exact Nat.eq_of_mul_eq_mul_left (by norm_num) h4
  have hdvd : (4294967296 : Nat) ∣ S :=
    Nat.Coprime.dvd_of_dvd_mul_left coprime_2pow32_t ⟨k, hk2⟩
  show (4294967296 : Nat) ∣ geomS PCG_MULTIPLIER_32 4294967296
  rw [eM, hS]
  exact hdvd

theorem step_iter_period (inc s : Nat) (hs : s < W32) :
    (fun x => pcg_core_state32 x inc)^[4294967296] s = s := by
  rw [step_iter_formula inc 4294967296 s hs]
  have h1 : PCG_MULTIPLIER_32 ^ 4294967296 ≡ 1 [MOD W32] := by
    have h := M_pow_two_pow 32
    have e1 : (2 : Nat) ^ 32 = 4294967296 := by norm_num
    have e2 : (2 : Nat) ^ (32 + 2) = 17179869184 := by norm_num
    rw [e1, e2] at h
    exact Nat.ModEq.of_dvd ⟨4, by norm_num [W32]⟩ h
  have h2 : inc * geomS PCG_MULTIPLIER_32 4294967296 ≡ inc * 0 [MOD W32] :=
    Nat.ModEq.mul_left inc ((Nat.modEq_zero_iff_dvd).2 W32_dvd_geomS)
  have h3 : PCG_MULTIPLIER_32 ^ 4294967296 * s
      + inc * geomS PCG_MULTIPLIER_32 4294967296
      ≡ 1 * s + inc * 0 [MOD W32] :=
    Nat.ModEq.add (Nat.ModEq.mul_right s h1) h2
  have h4 : (PCG_MULTIPLIER_32 ^ 4294967296 * s
      + inc * geomS PCG_MULTIPLIER_32 4294967296) % W32
      = (1 * s + inc * 0) % W32 := h3
  rw [h4, Nat.one_mul, Nat.mul_zero, Nat.add_zero, Nat.mod_eq_of_lt hs]

theorem step_iter_mod (inc : Nat) : ∀ (n s : Nat), s < W32 →
    (fun x => pcg_core_state32 x inc)^[n] s
      = (fun x => pcg_core_state32 x inc)^[n % 4294967296] s := by
  intro n
  induction n using Nat.strong_induction_on with
  | _ n ih =>
    intro s hs
    by_cases hn : n < 4294967296
    · rw [Nat.mod_eq_of_lt hn]
    · have h1 : n = (n - 4294967296) + 4294967296 := by omega
      have h2 : n % 4294967296 = (n - 4294967296) % 4294967296 := by omega
      rw [h2]
      conv_lhs => rw [h1]
      rw [Function.iterate_add_apply, step_iter_period inc s hs]
      exact ih (n - 4294967296) (by omega) s hs

theorem jump_lcg32_32_eq (delta s i : Nat) (hd : delta < W32) (hs : s < W32) :
    jump_lcg32_32 delta s PCG_MULTIPLIER_32 i
      = (fun x => pcg_core_state32 x i)^[delta] s := by
  have hstep : (fun x => pcg_core_state32 x i) = affF PCG_MULTIPLIER_32 i := by
    funext x
    exact pcg_core_eq_affF x i
  show affF (jump_lcg_loop 32 delta PCG_MULTIPLIER_32 i 1 0).1
      (jump_lcg_loop 32 delta PCG_MULTIPLIER_32 i 1 0).2 s = _
  rw [jump_lcg_loop_eq 32 delta _ _ 1 0 s (show delta < 2 ^ 32 from hd)]
  rw [affF_one_zero s hs, hstep]

theorem pcg_ext (x y : Pcg32x32) (h1 : x.state = y.state)
    (h2 : x.inc = y.inc) : x = y := by
  cases x
  cases y
  simp_all

/-- C4: jumping by a and then by b is the same as one jump by
(a + b) mod 2^32, and that state is exactly a + b applications of the pure
LCG step to the original state, for every generator with a 32-bit state. -/
theorem c4_jump_additive (g : Pcg32x32) (a b : Nat) (hs : g.state < W32)
    (ha : a < W32) (hb : b < W32) :
    Pcg32x32.jump (Pcg32x32.jump g a) b = Pcg32x32.jump g ((a + b) % W32) ∧
    (Pcg32x32.jump (Pcg32x32.jump g a) b).state
      = (fun x => pcg_core_state32 x g.inc)^[a + b] g.state := by
  have hga_lt : (Pcg32x32.jump g a).state < W32 :=
    Nat.mod_lt _ (by norm_num [W32])
  have hstate2 : (Pcg32x32.jump (Pcg32x32.jump g a) b).state
      = (fun x => pcg_core_state32 x g.inc)^[a + b] g.state := by
    show jump_lcg32_32 b (Pcg32x32.jump g a).state PCG_MULTIPLIER_32 g.inc = _
    rw [jump_lcg32_32_eq b _ g.inc hb hga_lt]
    show (fun x => pcg_core_state32 x g.inc)^[b]
        (jump_lcg32_32 a g.state PCG_MULTIPLIER_32 g.inc) = _
    rw [jump_lcg32_32_eq a g.state g.inc ha hs]
    rw [← Function.iterate_add_apply]
    rw [Nat.add_comm b a]
  refine ⟨?_, hstate2⟩
  refine pcg_ext _ _ ?_ rfl
  rw [hstate2]
  show _ = jump_lcg32_32 ((a + b) % W32) g.state PCG_MULTIPLIER_32 g.inc
  rw [jump_lcg32_32_eq ((a + b) % W32) g.state g.inc
    (Nat.mod_lt _ (by norm_num [W32])) hs]
  exact step_iter_mod g.inc (a + b) g.state hs

theorem c4_jump_additive_witness :
    (Pcg32x32.jump (Pcg32x32.jump (Pcg32x32.seed 0 0) 2) 3
        = Pcg32x32.jump (Pcg32x32.seed 0 0) ((2 + 3) % W32)) ∧
    (Pcg32x32.jump (Pcg32x32.jump (Pcg32x32.seed 0 0) 2) 3).state
      = (fun x => pcg_core_state32 x (Pcg32x32.seed 0 0).inc)^[2 + 3]
          (Pcg32x32.seed 0 0).state :=
  c4_jump_additive (Pcg32x32.seed 0 0) 2 3 (by decide) (by decide) (by decide)

/-- C5 counterexample: from seed(12345, 0), three next_u32 calls followed
by jump(2^32 - 3) and one more next_u32 give 1092136094, not the first
output 1281581763: next_u32 advances the permuted state, so the pure LCG
jump does not invert three next_u32 calls. -/
theorem c5_scenario_counterexample :
    (Pcg32x32.next_u32 (Pcg32x32.jump
        (Pcg32x32.next_u32 (Pcg32x32.next_u32 (Pcg32x32.next_u32
          (Pcg32x32.seed 12345 0)).2).2).2 4294967293)).1 = 1092136094 ∧
    (Pcg32x32.next_u32 (Pcg32x32.seed 12345 0)).1 = 1281581763 ∧
    (Pcg32x32.next_u32 (Pcg32x32.jump
        (Pcg32x32.next_u32 (Pcg32x32.next_u32 (Pcg32x32.next_u32
          (Pcg32x32.seed 12345 0)).2).2).2 4294967293)).1
      ≠ (Pcg32x32.next_u32 (Pcg32x32.seed 12345 0)).1 :=
  ⟨by decide, by decide, by decide⟩

/-- C5 amended: cycle consistency holds for pure LCG advances: from
seed(12345, 0), jump(3) followed by jump(2^32 - 3) restores the state, so
the next output equals the first output of the untouched generator; with
three next_u32 calls in place of jump(3), the fourth output (1092136094)
differs from the first (1281581763). -/
theorem c5_jump_cycle_consistency :
    (Pcg32x32.next_u32 (Pcg32x32.jump (Pcg32x32.jump
        (Pcg32x32.seed 12345 0) 3) 4294967293)).1
      = (Pcg32x32.next_u32 (Pcg32x32.seed 12345 0)).1 := by
  decide
